import Mathlib

set_option linter.unusedSectionVars false

/-!
Verification of the `BidirectionalMap` data structure from
`src/data_structures/bidirectional_map.ts`.

The TypeScript class extends the built-in `Map<K, V>` (the forward mapping)
and keeps a private `#reverseMap : Map<V, K>`.  JavaScript maps can store
`undefined` both as a key and as a value, and `Map.prototype.get` returns
`undefined` for an absent key; the TypeScript code distinguishes presence by
comparing against `undefined` (`!== undefined`).  To model this faithfully,
keys of the forward map are `Option K` (`none` is the JavaScript value
`undefined`), values are `Option V`, and a lookup in the underlying map
yields `Option (Option V)` which the code observes only through
`Option.join` — exactly the collapse of "absent" and "present with value
`undefined`" that `!== undefined` performs.

A JavaScript `Map` is modelled as an association list without duplicate
keys; `set` updates in place (preserving insertion order) or appends, and
`delete` removes the (unique) entry with the given key.
-/

section AssocMap

variable {κ ω : Type} [DecidableEq κ]

/-- Model of `Map.prototype.get`: the value of the first entry with the given key. -/
def mapGet (k : κ) : List (κ × ω) → Option ω
  | [] => none
  | (k', v) :: rest => if k' = k then some v else mapGet k rest

/-- Model of `Map.prototype.has`. -/
def mapHas (k : κ) (l : List (κ × ω)) : Bool :=
  (mapGet k l).isSome

/-- Model of `Map.prototype.set`: replace in place if the key exists, else append. -/
def mapSet (k : κ) (v : ω) : List (κ × ω) → List (κ × ω)
  | [] => [(k, v)]
  | (k', v') :: rest => if k' = k then (k, v) :: rest else (k', v') :: mapSet k v rest

/-- Model of `Map.prototype.delete` (the state after the call). -/
def mapDelete (k : κ) : List (κ × ω) → List (κ × ω)
  | [] => []
  | (k', v') :: rest => if k' = k then rest else (k', v') :: mapDelete k rest

/-- A list is a valid JavaScript `Map` state when its keys are distinct. -/
def MapWF (l : List (κ × ω)) : Prop :=
  (l.map Prod.fst).Nodup

instance (l : List (κ × ω)) : Decidable (MapWF l) := by
  unfold MapWF; infer_instance

end AssocMap

/-- The state of a `BidirectionalMap<K, V>`: the inherited `Map<K, V>`
(forward mapping) and the private `#reverseMap : Map<V, K>`.  Keys and
values are `Option`s; `none` is the JavaScript value `undefined`. -/
structure BidirectionalMap (K V : Type) where
  forward : List (Option K × Option V)
  reverseMap : List (Option V × Option K)
  deriving DecidableEq

namespace BidirectionalMap

variable {K V : Type} [DecidableEq K] [DecidableEq V]

/-- The constructor `new BidirectionalMap()` with no iterable: both maps empty. -/
def empty : BidirectionalMap K V := ⟨[], []⟩

/-- Operation `get(key)`, inherited from `Map`: the JavaScript return value
`V | undefined` (absence and a stored `undefined` both come out `none`). -/
def get (m : BidirectionalMap K V) (key : Option K) : Option V :=
  (mapGet key m.forward).join

/-- Operation `getReverse(value)`: `this.#reverseMap.get(value)`. -/
def getReverse (m : BidirectionalMap K V) (value : Option V) : Option K :=
  (mapGet value m.reverseMap).join

/-- Operation `has(key)`, inherited from `Map`. -/
def has (m : BidirectionalMap K V) (key : Option K) : Bool :=
  mapHas key m.forward

/-- Operation `hasReverse(value)`: `this.#reverseMap.has(value)`. -/
def hasReverse (m : BidirectionalMap K V) (value : Option V) : Bool :=
  mapHas value m.reverseMap

/-- Attribute `size`, inherited from `Map`: number of entries of the forward map. -/
def size (m : BidirectionalMap K V) : Nat :=
  m.forward.length

/-- Operation `clear()`: empties both maps. -/
def clear (_m : BidirectionalMap K V) : BidirectionalMap K V :=
  ⟨[], []⟩

/-- The body of `set(key, value)` is
```
const oldValue = super.get(key);
if (oldValue !== undefined) { this.#reverseMap.delete(oldValue); }
const oldKey = this.#reverseMap.get(value);
if (oldKey !== undefined) { super.delete(oldKey); }
super.set(key, value);
this.#reverseMap.set(value, key);
```
split below into the state of the reverse map after the `oldValue`
stale-entry removal (`setRev1`), the state of the forward map after the
`oldKey` stale-entry removal (`setFwd1`), and the final two `set` steps.
`setRev1` is the reverse map of `set` after the `oldValue` removal step. -/
def setRev1 (m : BidirectionalMap K V) (key : Option K) :
    List (Option V × Option K) :=
  match (mapGet key m.forward).join with
  | some oldValue => mapDelete (some oldValue) m.reverseMap
  | none => m.reverseMap

/-- The forward map of `set` after the `oldKey` stale-entry removal step
(the `oldKey` lookup happens after the `oldValue` removal). -/
def setFwd1 (m : BidirectionalMap K V) (key : Option K) (value : Option V) :
    List (Option K × Option V) :=
  match (mapGet value (setRev1 m key)).join with
  | some oldKey => mapDelete (some oldKey) m.forward
  | none => m.forward

/-- Operation `set(key, value)`: both stale-entry removals followed by
`super.set(key, value)` and `this.#reverseMap.set(value, key)`. -/
def set (m : BidirectionalMap K V) (key : Option K) (value : Option V) :
    BidirectionalMap K V :=
  { forward := mapSet key value (setFwd1 m key value)
    reverseMap := mapSet value key (setRev1 m key) }

/-- Operation `delete(key)`:
```
const value = super.get(key);
if (value === undefined) return false;
this.#reverseMap.delete(value);
return super.delete(key);
```
Returns the boolean result paired with the state after the call. -/
def delete (m : BidirectionalMap K V) (key : Option K) :
    Bool × BidirectionalMap K V :=
  match (mapGet key m.forward).join with
  | none => (false, m)
  | some value =>
      (mapHas key m.forward,
       { forward := mapDelete key m.forward
         reverseMap := mapDelete (some value) m.reverseMap })

/-- Operation `deleteReverse(value)`:
```
const key = this.#reverseMap.get(value);
if (key === undefined) { return false; }
super.delete(key);
return this.#reverseMap.delete(value);
```
-/
def deleteReverse (m : BidirectionalMap K V) (value : Option V) :
    Bool × BidirectionalMap K V :=
  match (mapGet value m.reverseMap).join with
  | none => (false, m)
  | some key =>
      (mapHas value m.reverseMap,
       { forward := mapDelete (some key) m.forward
         reverseMap := mapDelete value m.reverseMap })

/-- The `for (const [key, value] of iterable) { this.set(key, value); }`
loop of the constructor, starting from an arbitrary current state. -/
def constructLoop (m : BidirectionalMap K V) :
    List (Option K × Option V) → BidirectionalMap K V
  | [] => m
  | (key, value) :: rest => constructLoop (m.set key value) rest

/-- The constructor `new BidirectionalMap(iterable?)`: start from two empty maps, then run
the constructor loop over the iterable (if one was given). -/
def ofIterable (it : Option (List (Option K × Option V))) :
    BidirectionalMap K V :=
  match it with
  | none => empty
  | some l => constructLoop empty l

/-- One public mutating operation of the container. -/
inductive Op (K V : Type) where
  | set (key : Option K) (value : Option V)
  | del (key : Option K)
  | delRev (value : Option V)
  | clear
  deriving DecidableEq

/-- Apply one operation to a state (the boolean results are discarded). -/
def applyOp (m : BidirectionalMap K V) : Op K V → BidirectionalMap K V
  | .set key value => m.set key value
  | .del key => (m.delete key).2
  | .delRev value => (m.deleteReverse value).2
  | .clear => m.clear

/-- Run a finite sequence of operations starting from the empty container. -/
def run (ops : List (Op K V)) : BidirectionalMap K V :=
  ops.foldl applyOp empty

/-- An operation whose arguments are all defined (none of them is the
JavaScript value `undefined`). -/
def Op.definedArgs : Op K V → Bool
  | .set key value => key.isSome && value.isSome
  | _ => true

/-- Every `set` in the sequence passes defined (non-`undefined`) arguments. -/
def DefinedOps (ops : List (Op K V)) : Prop :=
  ∀ op ∈ ops, op.definedArgs = true

instance (ops : List (Op K V)) : Decidable (DefinedOps ops) := by
  unfold DefinedOps; infer_instance

/-- The representation invariant of reachable-with-defined-arguments states:
both underlying maps are well-formed, every stored key and value is defined,
and the two maps are exact inverses of each other entry by entry. -/
def Inv (m : BidirectionalMap K V) : Prop :=
  MapWF m.forward ∧ MapWF m.reverseMap ∧
  (∀ p ∈ m.forward, p.1.isSome = true ∧ p.2.isSome = true) ∧
  (∀ p ∈ m.forward, (p.2, p.1) ∈ m.reverseMap) ∧
  (∀ p ∈ m.reverseMap, (p.2, p.1) ∈ m.forward)

instance (m : BidirectionalMap K V) : Decidable (Inv m) := by
  unfold Inv; infer_instance

end BidirectionalMap

namespace BidirectionalMap

variable {K V : Type} [DecidableEq K] [DecidableEq V]

/-- Modelled from the spec: "starting empty and calling `set` for each pair
in order" — the reference construction that `ofIterable` is claimed to be
equivalent to. -/
def setEachSpec (l : List (Option K × Option V)) : BidirectionalMap K V :=
  l.foldl (fun m p => m.set p.1 p.2) empty

/-- A sequence that stores the value `undefined` and then overwrites it:
`set(0, undefined); set(0, 1)`. -/
def opsUndefinedValue : List (Op Nat Nat) :=
  [.set (some 0) none, .set (some 0) (some 1)]

/-- A defined-arguments operation sequence used as a sample input. -/
def opsSample : List (Op Nat Nat) :=
  [.set (some 1) (some 10), .set (some 2) (some 20), .del (some 1)]

/-- The state after `set(0, undefined)` on an empty map. -/
def mapUndefinedValue : BidirectionalMap Nat Nat :=
  empty.set (some 0) none

/-- The state after `set(undefined, 0)` on an empty map. -/
def mapUndefinedKey : BidirectionalMap Nat Nat :=
  empty.set none (some 0)

/-- The state after `set("a", 1); set("b", 2); set("a", 2)` on an empty
map (the spec's double-collision example). -/
def mapDoubleCollision : BidirectionalMap String Nat :=
  ((empty.set (some "a") (some 1)).set (some "b") (some 2)).set
    (some "a") (some 2)

/-- A two-entry sample state with defined keys and values. -/
def mapSample : BidirectionalMap Nat Nat :=
  (empty.set (some 1) (some 10)).set (some 2) (some 20)

end BidirectionalMap

/-! ### Lemmas about the association-list model of JavaScript `Map` -/

section AssocMapLemmas

variable {κ ω : Type} [DecidableEq κ]

theorem mapGet_cons (k k' : κ) (v : ω) (l : List (κ × ω)) :
    mapGet k ((k', v) :: l) = if k' = k then some v else mapGet k l := rfl

theorem mem_of_mapGet_eq_some {k : κ} {v : ω} {l : List (κ × ω)}
    (h : mapGet k l = some v) : (k, v) ∈ l := by
  induction l with
  | nil => simp [mapGet] at h
  | cons hd tl ih =>
      obtain ⟨k', v'⟩ := hd
      by_cases hk : k' = k
      · subst hk
        simp [mapGet] at h
        subst h
        exact List.mem_cons_self _ _
      · simp [mapGet, hk] at h
        exact List.mem_cons_of_mem _ (ih h)

theorem mapGet_eq_some_of_mem {k : κ} {v : ω} {l : List (κ × ω)}
    (wf : MapWF l) (h : (k, v) ∈ l) : mapGet k l = some v := by
  induction l with
  | nil => simp at h
  | cons hd tl ih =>
      obtain ⟨k', v'⟩ := hd
      rw [MapWF, List.map_cons, List.nodup_cons] at wf
      rcases List.mem_cons.mp h with heq | hmem
      · obtain ⟨rfl, rfl⟩ := Prod.mk.injEq .. ▸ heq
        simp [mapGet]
      · by_cases hk : k' = k
        · subst hk
          exact absurd (List.mem_map.mpr ⟨(k', v), hmem, rfl⟩) wf.1
        · simp only [mapGet, hk, if_false]
          exact ih wf.2 hmem

theorem mapGet_eq_none_iff {k : κ} {l : List (κ × ω)} :
    mapGet k l = none ↔ k ∉ l.map Prod.fst := by
  induction l with
  | nil => simp [mapGet]
  | cons hd tl ih =>
      obtain ⟨k', v'⟩ := hd
      by_cases hk : k' = k
      · subst hk; simp [mapGet]
      · simp [mapGet, hk, ih, Ne.symm hk]

theorem mapHas_iff {k : κ} {l : List (κ × ω)} :
    mapHas k l = true ↔ k ∈ l.map Prod.fst := by
  rw [mapHas, Option.isSome_iff_ne_none, ne_eq, mapGet_eq_none_iff, not_not]

theorem mapHas_eq_false_iff {k : κ} {l : List (κ × ω)} :
    mapHas k l = false ↔ k ∉ l.map Prod.fst := by
  rw [← mapGet_eq_none_iff, mapHas]
  cases mapGet k l <;> simp

theorem mapwf_unique {k : κ} {a b : ω} {l : List (κ × ω)} (wf : MapWF l)
    (ha : (k, a) ∈ l) (hb : (k, b) ∈ l) : a = b := by
  have h1 := mapGet_eq_some_of_mem wf ha
  have h2 := mapGet_eq_some_of_mem wf hb
  rw [h1] at h2
  exact Option.some.inj h2

theorem mapGet_mapSet_self (k : κ) (v : ω) (l : List (κ × ω)) :
    mapGet k (mapSet k v l) = some v := by
  induction l with
  | nil => simp [mapSet, mapGet]
  | cons hd tl ih =>
      obtain ⟨k', v'⟩ := hd
      by_cases hk : k' = k
      · simp [mapSet, hk, mapGet]
      · simp [mapSet, hk, mapGet, ih]

theorem mapGet_mapSet_ne {k k' : κ} (v : ω) (l : List (κ × ω)) (h : k' ≠ k) :
    mapGet k' (mapSet k v l) = mapGet k' l := by
  induction l with
  | nil => simp [mapSet, mapGet, Ne.symm h]
  | cons hd tl ih =>
      obtain ⟨k'', v''⟩ := hd
      by_cases hk : k'' = k
      · subst hk
        simp [mapSet, mapGet, Ne.symm h]
      · simp [mapSet, hk, mapGet, ih]

theorem mapDelete_sublist (k : κ) (l : List (κ × ω)) :
    (mapDelete k l).Sublist l := by
  induction l with
  | nil => simp [mapDelete]
  | cons hd tl ih =>
      obtain ⟨k', v'⟩ := hd
      by_cases hk : k' = k
      · rw [mapDelete, if_pos hk]
        exact List.sublist_cons_self (k', v') tl
      · rw [mapDelete, if_neg hk]
        exact ih.cons₂ (k', v')

theorem mem_of_mem_mapDelete {k : κ} {p : κ × ω} {l : List (κ × ω)}
    (h : p ∈ mapDelete k l) : p ∈ l :=
  (mapDelete_sublist k l).mem h

theorem MapWF_mapDelete {k : κ} {l : List (κ × ω)} (wf : MapWF l) :
    MapWF (mapDelete k l) :=
  ((mapDelete_sublist k l).map Prod.fst).nodup wf

theorem mem_mapDelete_of_mem {k : κ} {p : κ × ω} {l : List (κ × ω)}
    (h : p ∈ l) (hne : p.1 ≠ k) : p ∈ mapDelete k l := by
  induction l with
  | nil => simp at h
  | cons hd tl ih =>
      obtain ⟨k', v'⟩ := hd
      rcases List.mem_cons.mp h with heq | hmem
      · subst heq
        simp [mapDelete, hne]
      · by_cases hk : k' = k
        · simpa [mapDelete, hk] using hmem
        · simpa [mapDelete, hk] using Or.inr (ih hmem)

theorem mapGet_mapDelete_self {k : κ} {l : List (κ × ω)} (wf : MapWF l) :
    mapGet k (mapDelete k l) = none := by
  induction l with
  | nil => simp [mapDelete, mapGet]
  | cons hd tl ih =>
      obtain ⟨k', v'⟩ := hd
      rw [MapWF, List.map_cons, List.nodup_cons] at wf
      by_cases hk : k' = k
      · subst hk
        rw [mapDelete, if_pos rfl, mapGet_eq_none_iff]
        exact wf.1
      · rw [mapDelete, if_neg hk, mapGet_cons, if_neg hk]
        exact ih wf.2

theorem ne_of_mem_mapDelete {k : κ} {p : κ × ω} {l : List (κ × ω)}
    (wf : MapWF l) (h : p ∈ mapDelete k l) : p.1 ≠ k := by
  obtain ⟨p1, p2⟩ := p
  intro hk
  simp only at hk
  subst hk
  have := mapGet_eq_some_of_mem (MapWF_mapDelete wf) h
  rw [mapGet_mapDelete_self wf] at this
  exact Option.noConfusion this

theorem mapGet_mapDelete_ne {k k' : κ} {l : List (κ × ω)} (h : k' ≠ k) :
    mapGet k' (mapDelete k l) = mapGet k' l := by
  induction l with
  | nil => simp [mapDelete]
  | cons hd tl ih =>
      obtain ⟨k'', v''⟩ := hd
      by_cases hk : k'' = k
      · subst hk
        rw [mapDelete, if_pos rfl, mapGet_cons, if_neg (Ne.symm h)]
      · by_cases hk' : k'' = k'
        · rw [mapDelete, if_neg hk, mapGet_cons, if_pos hk', mapGet_cons, if_pos hk']
        · rw [mapDelete, if_neg hk, mapGet_cons, if_neg hk', mapGet_cons, if_neg hk', ih]

theorem mem_mapSet_self (k : κ) (v : ω) (l : List (κ × ω)) :
    (k, v) ∈ mapSet k v l :=
  mem_of_mapGet_eq_some (mapGet_mapSet_self k v l)

theorem mem_mapSet_of_ne {k : κ} {v : ω} {p : κ × ω} {l : List (κ × ω)}
    (h : p ∈ l) (hne : p.1 ≠ k) : p ∈ mapSet k v l := by
  induction l with
  | nil => simp at h
  | cons hd tl ih =>
      obtain ⟨k', v'⟩ := hd
      rcases List.mem_cons.mp h with heq | hmem
      · subst heq
        rw [mapSet, if_neg hne]
        exact List.mem_cons_self _ _
      · by_cases hk : k' = k
        · rw [mapSet, if_pos hk]
          exact List.mem_cons_of_mem _ hmem
        · rw [mapSet, if_neg hk]
          exact List.mem_cons_of_mem _ (ih hmem)

theorem mem_fst_mapSet {a k : κ} {v : ω} {l : List (κ × ω)} :
    a ∈ (mapSet k v l).map Prod.fst ↔ a = k ∨ a ∈ l.map Prod.fst := by
  induction l with
  | nil => simp [mapSet, eq_comm]
  | cons hd tl ih =>
      obtain ⟨k', v'⟩ := hd
      by_cases hk : k' = k
      · subst hk
        simp [mapSet, eq_comm]
      · simp only [mapSet, if_neg hk, List.map_cons, List.mem_cons, ih]
        tauto

theorem MapWF_mapSet {k : κ} {v : ω} {l : List (κ × ω)} (wf : MapWF l) :
    MapWF (mapSet k v l) := by
  induction l with
  | nil => simp [mapSet, MapWF]
  | cons hd tl ih =>
      obtain ⟨k', v'⟩ := hd
      rw [MapWF, List.map_cons, List.nodup_cons] at wf
      by_cases hk : k' = k
      · subst hk
        rw [MapWF, mapSet, if_pos rfl, List.map_cons, List.nodup_cons]
        exact wf
      · rw [MapWF, mapSet, if_neg hk, List.map_cons, List.nodup_cons]
        refine ⟨fun hmem => ?_, ih wf.2⟩
        rcases mem_fst_mapSet.mp hmem with rfl | hmem2
        · exact hk rfl
        · exact wf.1 hmem2

theorem of_mem_mapSet {k : κ} {v : ω} {p : κ × ω} {l : List (κ × ω)}
    (wf : MapWF l) (h : p ∈ mapSet k v l) :
    p = (k, v) ∨ (p ∈ l ∧ p.1 ≠ k) := by
  induction l with
  | nil => simp [mapSet] at h; exact Or.inl h
  | cons hd tl ih =>
      obtain ⟨k', v'⟩ := hd
      rw [MapWF, List.map_cons, List.nodup_cons] at wf
      by_cases hk : k' = k
      · subst hk
        rw [mapSet, if_pos rfl] at h
        rcases List.mem_cons.mp h with heq | hmem
        · exact Or.inl heq
        · refine Or.inr ⟨List.mem_cons_of_mem _ hmem, fun hp => ?_⟩
          exact wf.1 (hp ▸ List.mem_map.mpr ⟨p, hmem, rfl⟩)
      · rw [mapSet, if_neg hk] at h
        rcases List.mem_cons.mp h with heq | hmem
        · subst heq
          exact Or.inr ⟨List.mem_cons_self _ _, hk⟩
        · rcases ih wf.2 hmem with heq | ⟨hmem2, hne⟩
          · exact Or.inl heq
          · exact Or.inr ⟨List.mem_cons_of_mem _ hmem2, hne⟩

end AssocMapLemmas

/-! ### Size, identity and permutation lemmas for the `Map` model -/

section AssocMapLemmas2

variable {κ ω : Type} [DecidableEq κ]

theorem mapDelete_of_not_has {k : κ} {l : List (κ × ω)}
    (h : mapHas k l = false) : mapDelete k l = l := by
  induction l with
  | nil => rfl
  | cons hd tl ih =>
      obtain ⟨k', v'⟩ := hd
      rw [mapHas_eq_false_iff, List.map_cons, List.mem_cons] at h
      push_neg at h
      rw [mapDelete, if_neg (Ne.symm h.1), ih (mapHas_eq_false_iff.mpr h.2)]

theorem length_mapDelete_of_has {k : κ} {l : List (κ × ω)}
    (h : mapHas k l = true) : (mapDelete k l).length + 1 = l.length := by
  induction l with
  | nil => simp [mapHas, mapGet] at h
  | cons hd tl ih =>
      obtain ⟨k', v'⟩ := hd
      by_cases hk : k' = k
      · rw [mapDelete, if_pos hk, List.length_cons]
      · rw [mapHas_iff, List.map_cons, List.mem_cons] at h
        rcases h with h | h
        · exact absurd h.symm hk
        · rw [mapDelete, if_neg hk, List.length_cons, List.length_cons,
            ih (mapHas_iff.mpr h)]

theorem length_mapSet_of_has {k : κ} {v : ω} {l : List (κ × ω)}
    (h : mapHas k l = true) : (mapSet k v l).length = l.length := by
  induction l with
  | nil => simp [mapHas, mapGet] at h
  | cons hd tl ih =>
      obtain ⟨k', v'⟩ := hd
      by_cases hk : k' = k
      · rw [mapSet, if_pos hk, List.length_cons, List.length_cons]
      · rw [mapHas_iff, List.map_cons, List.mem_cons] at h
        rcases h with h | h
        · exact absurd h.symm hk
        · rw [mapSet, if_neg hk, List.length_cons, List.length_cons,
            ih (mapHas_iff.mpr h)]

theorem mapSet_of_not_has {k : κ} {v : ω} {l : List (κ × ω)}
    (h : mapHas k l = false) : mapSet k v l = l ++ [(k, v)] := by
  induction l with
  | nil => rfl
  | cons hd tl ih =>
      obtain ⟨k', v'⟩ := hd
      rw [mapHas_eq_false_iff, List.map_cons, List.mem_cons] at h
      push_neg at h
      rw [mapSet, if_neg (Ne.symm h.1), List.cons_append,
        ih (mapHas_eq_false_iff.mpr h.2)]

theorem length_mapSet_of_not_has {k : κ} {v : ω} {l : List (κ × ω)}
    (h : mapHas k l = false) : (mapSet k v l).length = l.length + 1 := by
  rw [mapSet_of_not_has h, List.length_append, List.length_singleton]

theorem mapSet_eq_of_mapGet_eq {k : κ} {v : ω} {l : List (κ × ω)}
    (h : mapGet k l = some v) : mapSet k v l = l := by
  induction l with
  | nil => simp [mapGet] at h
  | cons hd tl ih =>
      obtain ⟨k', v'⟩ := hd
      by_cases hk : k' = k
      · subst hk
        rw [mapGet_cons, if_pos rfl] at h
        obtain rfl := Option.some.inj h
        rw [mapSet, if_pos rfl]
      · rw [mapGet_cons, if_neg hk] at h
        rw [mapSet, if_neg hk, ih h]

theorem mapDelete_mapSet (k : κ) (v : ω) (l : List (κ × ω)) :
    mapDelete k (mapSet k v l) = mapDelete k l := by
  induction l with
  | nil => simp [mapSet, mapDelete]
  | cons hd tl ih =>
      obtain ⟨k', v'⟩ := hd
      by_cases hk : k' = k
      · rw [mapSet, if_pos hk, mapDelete, if_pos rfl, mapDelete, if_pos hk]
      · rw [mapSet, if_neg hk, mapDelete, if_neg hk, mapDelete, if_neg hk, ih]

theorem mapDelete_append_singleton {k : κ} {v : ω} {l : List (κ × ω)}
    (h : mapHas k l = false) : mapDelete k (l ++ [(k, v)]) = l := by
  induction l with
  | nil => simp [mapDelete]
  | cons hd tl ih =>
      obtain ⟨k', v'⟩ := hd
      rw [mapHas_eq_false_iff, List.map_cons, List.mem_cons] at h
      push_neg at h
      rw [List.cons_append, mapDelete, if_neg (Ne.symm h.1),
        ih (mapHas_eq_false_iff.mpr h.2)]

theorem perm_mapSet_of_has {k : κ} {v : ω} {l : List (κ × ω)}
    (h : mapHas k l = true) :
    (mapSet k v l).Perm (mapDelete k l ++ [(k, v)]) := by
  induction l with
  | nil => simp [mapHas, mapGet] at h
  | cons hd tl ih =>
      obtain ⟨k', v'⟩ := hd
      by_cases hk : k' = k
      · rw [mapSet, if_pos hk, mapDelete, if_pos hk]
        exact (List.perm_append_singleton _ _).symm
      · rw [mapHas_iff, List.map_cons, List.mem_cons] at h
        rcases h with h | h
        · exact absurd h.symm hk
        · rw [mapSet, if_neg hk, mapDelete, if_neg hk, List.cons_append]
          exact (ih (mapHas_iff.mpr h)).cons (k', v')

end AssocMapLemmas2

/-! ### `Option.join` helpers -/

theorem optJoin_some {α : Type} (o : Option α) : (some o).join = o := by
  cases o <;> rfl

theorem optJoin_eq_some_iff {α : Type} {o : Option (Option α)} {a : α} :
    o.join = some a ↔ o = some (some a) := by
  cases o with
  | none => simp [Option.join]
  | some x => cases x <;> simp [Option.join]

/-! ### The representation invariant and its preservation -/

theorem mapGet_eq_none_of_join_none {κ α : Type} [DecidableEq κ]
    {l : List (κ × Option α)} (hdef : ∀ p ∈ l, p.2.isSome = true) {k : κ}
    (h : (mapGet k l).join = none) : mapGet k l = none := by
  cases hg : mapGet k l with
  | none => rfl
  | some v =>
      have hv := hdef _ (mem_of_mapGet_eq_some hg)
      obtain ⟨v0, rfl⟩ := Option.isSome_iff_exists.mp hv
      rw [hg, optJoin_some] at h
      exact absurd h (by simp)

namespace BidirectionalMap

variable {K V : Type} [DecidableEq K] [DecidableEq V]
variable {m : BidirectionalMap K V}

theorem Inv.fwd_wf (h : Inv m) : MapWF m.forward := h.1

theorem Inv.rev_wf (h : Inv m) : MapWF m.reverseMap := h.2.1

theorem Inv.fwd_defined (h : Inv m) :
    ∀ p ∈ m.forward, p.1.isSome = true ∧ p.2.isSome = true := h.2.2.1

theorem Inv.fwd_rev (h : Inv m) :
    ∀ p ∈ m.forward, (p.2, p.1) ∈ m.reverseMap := h.2.2.2.1

theorem Inv.rev_fwd (h : Inv m) :
    ∀ p ∈ m.reverseMap, (p.2, p.1) ∈ m.forward := h.2.2.2.2

theorem Inv.rev_defined (h : Inv m) :
    ∀ q ∈ m.reverseMap, q.1.isSome = true ∧ q.2.isSome = true := by
  intro q hq
  have hd := h.fwd_defined _ (h.rev_fwd q hq)
  exact ⟨hd.2, hd.1⟩

theorem Inv.fwd_unique (h : Inv m) {k : Option K} {a b : Option V}
    (ha : (k, a) ∈ m.forward) (hb : (k, b) ∈ m.forward) : a = b :=
  mapwf_unique h.fwd_wf ha hb

theorem Inv.rev_unique (h : Inv m) {v : Option V} {a b : Option K}
    (ha : (v, a) ∈ m.reverseMap) (hb : (v, b) ∈ m.reverseMap) : a = b :=
  mapwf_unique h.rev_wf ha hb

/-- With every stored forward value defined, a `=== undefined` test on
`super.get(key)` really detects absence of the key. -/
theorem Inv.fwdGet_none_of_join (hInv : Inv m) {key : Option K}
    (h : (mapGet key m.forward).join = none) : mapGet key m.forward = none :=
  mapGet_eq_none_of_join_none (fun p hp => (hInv.fwd_defined p hp).2) h

/-- Same for `this.#reverseMap.get(value)`. -/
theorem Inv.revGet_none_of_join (hInv : Inv m) {value : Option V}
    (h : (mapGet value m.reverseMap).join = none) :
    mapGet value m.reverseMap = none :=
  mapGet_eq_none_of_join_none (fun q hq => (hInv.rev_defined q hq).2) h

theorem setRev1_of_join_none {key : Option K}
    (h : (mapGet key m.forward).join = none) :
    setRev1 m key = m.reverseMap := by
  simp only [setRev1, h]

theorem setRev1_of_join_some {key : Option K} {ov : V}
    (h : (mapGet key m.forward).join = some ov) :
    setRev1 m key = mapDelete (some ov) m.reverseMap := by
  simp only [setRev1, h]

theorem setFwd1_of_join_none {key : Option K} {value : Option V}
    (h : (mapGet value (setRev1 m key)).join = none) :
    setFwd1 m key value = m.forward := by
  simp only [setFwd1, h]

theorem setFwd1_of_join_some {key : Option K} {value : Option V} {ok : K}
    (h : (mapGet value (setRev1 m key)).join = some ok) :
    setFwd1 m key value = mapDelete (some ok) m.forward := by
  simp only [setFwd1, h]

theorem mem_of_mem_setRev1 {key : Option K} {q : Option V × Option K}
    (h : q ∈ setRev1 m key) : q ∈ m.reverseMap := by
  cases hj : (mapGet key m.forward).join with
  | none => rwa [setRev1_of_join_none hj] at h
  | some ov =>
      rw [setRev1_of_join_some hj] at h
      exact mem_of_mem_mapDelete h

theorem MapWF_setRev1 {key : Option K} (h : MapWF m.reverseMap) :
    MapWF (setRev1 m key) := by
  cases hj : (mapGet key m.forward).join with
  | none => rwa [setRev1_of_join_none hj]
  | some ov =>
      rw [setRev1_of_join_some hj]
      exact MapWF_mapDelete h

theorem mem_of_mem_setFwd1 {key : Option K} {value : Option V}
    {p : Option K × Option V} (h : p ∈ setFwd1 m key value) : p ∈ m.forward := by
  cases hj : (mapGet value (setRev1 m key)).join with
  | none => rwa [setFwd1_of_join_none hj] at h
  | some ok =>
      rw [setFwd1_of_join_some hj] at h
      exact mem_of_mem_mapDelete h

theorem MapWF_setFwd1 {key : Option K} {value : Option V} (h : MapWF m.forward) :
    MapWF (setFwd1 m key value) := by
  cases hj : (mapGet value (setRev1 m key)).join with
  | none => rwa [setFwd1_of_join_none hj]
  | some ok =>
      rw [setFwd1_of_join_some hj]
      exact MapWF_mapDelete h

/-- After the `oldValue` removal step, no reverse entry points back to the
key being set. -/
theorem snd_ne_key_of_mem_setRev1 (hInv : Inv m) {key : Option K}
    {q : Option V × Option K} (hq : q ∈ setRev1 m key) : q.2 ≠ key := by
  intro hqk
  cases hj : (mapGet key m.forward).join with
  | none =>
      have hnone := hInv.fwdGet_none_of_join hj
      have hqR := mem_of_mem_setRev1 hq
      have hmemF : (key, q.1) ∈ m.forward := by
        have := hInv.rev_fwd q hqR
        rwa [hqk] at this
      rw [mapGet_eq_some_of_mem hInv.fwd_wf hmemF] at hnone
      exact Option.noConfusion hnone
  | some ov =>
      have hmemF : (key, some ov) ∈ m.forward :=
        mem_of_mapGet_eq_some (optJoin_eq_some_iff.mp hj)
      rw [setRev1_of_join_some hj] at hq
      have hqR := mem_of_mem_mapDelete hq
      have hne := ne_of_mem_mapDelete hInv.rev_wf hq
      have hmemF2 : (key, q.1) ∈ m.forward := by
        have := hInv.rev_fwd q hqR
        rwa [hqk] at this
      exact hne (hInv.fwd_unique hmemF2 hmemF ▸ rfl)

/-- Forward entries with a different key keep their reverse entry through
the `oldValue` removal step. -/
theorem mem_setRev1_of_mem_fwd (hInv : Inv m) {key : Option K}
    {p : Option K × Option V} (hp : p ∈ m.forward) (hne : p.1 ≠ key) :
    (p.2, p.1) ∈ setRev1 m key := by
  cases hj : (mapGet key m.forward).join with
  | none => exact setRev1_of_join_none hj ▸ hInv.fwd_rev p hp
  | some ov =>
      have hmemF : (key, some ov) ∈ m.forward :=
        mem_of_mapGet_eq_some (optJoin_eq_some_iff.mp hj)
      rw [setRev1_of_join_some hj]
      refine mem_mapDelete_of_mem (hInv.fwd_rev p hp) (fun hpv => ?_)
      have hpv2 : p.2 = some ov := hpv
      have h1 : (some ov, p.1) ∈ m.reverseMap := by
        have := hInv.fwd_rev p hp
        rwa [hpv2] at this
      have h2 : (some ov, key) ∈ m.reverseMap := hInv.fwd_rev _ hmemF
      exact hne (hInv.rev_unique h1 h2)

end BidirectionalMap

namespace BidirectionalMap

variable {K V : Type} [DecidableEq K] [DecidableEq V]
variable {m : BidirectionalMap K V}

/-- After both removal steps, a surviving forward entry with a different
key cannot carry the value being set. -/
theorem snd_ne_value_of_mem_setFwd1 (hInv : Inv m) {key : Option K}
    {value : Option V} {p : Option K × Option V}
    (hp : p ∈ setFwd1 m key value) (hne : p.1 ≠ key) : p.2 ≠ value := by
  intro hpv
  have hpv2 : p.2 = value := hpv
  cases hj : (mapGet value (setRev1 m key)).join with
  | some ok =>
      have hmemR1 : (value, some ok) ∈ setRev1 m key :=
        mem_of_mapGet_eq_some (optJoin_eq_some_iff.mp hj)
      have hmemR : (value, some ok) ∈ m.reverseMap := mem_of_mem_setRev1 hmemR1
      rw [setFwd1_of_join_some hj] at hp
      have hpF := mem_of_mem_mapDelete hp
      have hpne := ne_of_mem_mapDelete hInv.fwd_wf hp
      have h1 : (value, p.1) ∈ m.reverseMap := by
        have := hInv.fwd_rev p hpF
        rwa [hpv2] at this
      exact hpne (hInv.rev_unique h1 hmemR)
  | none =>
      rw [setFwd1_of_join_none hj] at hp
      have hdefR1 : ∀ q ∈ setRev1 m key, q.2.isSome = true := fun q hq =>
        (hInv.rev_defined q (mem_of_mem_setRev1 hq)).2
      have hnone : mapGet value (setRev1 m key) = none :=
        mapGet_eq_none_of_join_none hdefR1 hj
      have h2 := mem_setRev1_of_mem_fwd hInv hp hne
      rw [hpv2] at h2
      rw [mapGet_eq_some_of_mem (MapWF_setRev1 hInv.rev_wf) h2] at hnone
      exact Option.noConfusion hnone

/-- A reverse entry surviving the `oldValue` removal step whose key is not
the value being set keeps its forward entry through the `oldKey` removal
step. -/
theorem mem_setFwd1_of_mem_setRev1 (hInv : Inv m) {key : Option K}
    {value : Option V} {q : Option V × Option K}
    (hq : q ∈ setRev1 m key) (hne : q.1 ≠ value) :
    (q.2, q.1) ∈ setFwd1 m key value := by
  have hqR := mem_of_mem_setRev1 hq
  have hqF := hInv.rev_fwd q hqR
  cases hj : (mapGet value (setRev1 m key)).join with
  | none => rwa [setFwd1_of_join_none hj]
  | some ok =>
      rw [setFwd1_of_join_some hj]
      refine mem_mapDelete_of_mem hqF (fun hq2 => ?_)
      have hq2b : q.2 = some ok := hq2
      have hmemR1 : (value, some ok) ∈ setRev1 m key :=
        mem_of_mapGet_eq_some (optJoin_eq_some_iff.mp hj)
      have hmemR : (value, some ok) ∈ m.reverseMap := mem_of_mem_setRev1 hmemR1
      have h1 : (some ok, q.1) ∈ m.forward := by rwa [hq2b] at hqF
      have h2 : (some ok, value) ∈ m.forward := hInv.rev_fwd _ hmemR
      exact hne (hInv.fwd_unique h1 h2)

/-- Operation `set` with defined (non-`undefined`) key and value preserves the
representation invariant. -/
theorem inv_set (hInv : Inv m) {key : Option K} {value : Option V}
    (hk : key.isSome = true) (hv : value.isSome = true) :
    Inv (m.set key value) := by
  have wfF1 : MapWF (setFwd1 m key value) := MapWF_setFwd1 hInv.fwd_wf
  have wfR1 : MapWF (setRev1 m key) := MapWF_setRev1 hInv.rev_wf
  refine ⟨MapWF_mapSet wfF1, MapWF_mapSet wfR1, ?_, ?_, ?_⟩
  · intro p hp
    rcases of_mem_mapSet wfF1 hp with rfl | ⟨hpF1, hpne⟩
    · exact ⟨hk, hv⟩
    · exact hInv.fwd_defined p (mem_of_mem_setFwd1 hpF1)
  · intro p hp
    rcases of_mem_mapSet wfF1 hp with rfl | ⟨hpF1, hpne⟩
    · exact mem_mapSet_self value key _
    · exact mem_mapSet_of_ne
        (mem_setRev1_of_mem_fwd hInv (mem_of_mem_setFwd1 hpF1) hpne)
        (snd_ne_value_of_mem_setFwd1 hInv hpF1 hpne)
  · intro q hq
    rcases of_mem_mapSet wfR1 hq with rfl | ⟨hqR1, hqne⟩
    · exact mem_mapSet_self key value _
    · exact mem_mapSet_of_ne
        (mem_setFwd1_of_mem_setRev1 hInv hqR1 hqne)
        (snd_ne_key_of_mem_setRev1 hInv hqR1)

end BidirectionalMap

namespace BidirectionalMap

variable {K V : Type} [DecidableEq K] [DecidableEq V]
variable {m : BidirectionalMap K V}

/-- Operation `delete` preserves the representation invariant (any argument). -/
theorem inv_delete (hInv : Inv m) (key : Option K) : Inv (m.delete key).2 := by
  cases hj : (mapGet key m.forward).join with
  | none => simpa only [delete, hj] using hInv
  | some v0 =>
      have hmemF : (key, some v0) ∈ m.forward :=
        mem_of_mapGet_eq_some (optJoin_eq_some_iff.mp hj)
      have hmemR : (some v0, key) ∈ m.reverseMap := hInv.fwd_rev _ hmemF
      simp only [delete, hj]
      refine ⟨MapWF_mapDelete hInv.fwd_wf, MapWF_mapDelete hInv.rev_wf, ?_, ?_, ?_⟩
      · intro p hp
        exact hInv.fwd_defined p (mem_of_mem_mapDelete hp)
      · intro p hp
        have hpF := mem_of_mem_mapDelete hp
        have hpne := ne_of_mem_mapDelete hInv.fwd_wf hp
        refine mem_mapDelete_of_mem (hInv.fwd_rev p hpF) (fun hpv => ?_)
        have hpv2 : p.2 = some v0 := hpv
        have h1 : (some v0, p.1) ∈ m.reverseMap := by
          have := hInv.fwd_rev p hpF
          rwa [hpv2] at this
        exact hpne (hInv.rev_unique h1 hmemR)
      · intro q hq
        have hqR := mem_of_mem_mapDelete hq
        have hqne := ne_of_mem_mapDelete hInv.rev_wf hq
        refine mem_mapDelete_of_mem (hInv.rev_fwd q hqR) (fun hqk => ?_)
        have hqk2 : q.2 = key := hqk
        have h1 : (key, q.1) ∈ m.forward := by
          have := hInv.rev_fwd q hqR
          rwa [hqk2] at this
        exact hqne (hInv.fwd_unique h1 hmemF)

/-- Operation `deleteReverse` preserves the representation invariant (any argument). -/
theorem inv_deleteReverse (hInv : Inv m) (value : Option V) :
    Inv (m.deleteReverse value).2 := by
  cases hj : (mapGet value m.reverseMap).join with
  | none => simpa only [deleteReverse, hj] using hInv
  | some k0 =>
      have hmemR : (value, some k0) ∈ m.reverseMap :=
        mem_of_mapGet_eq_some (optJoin_eq_some_iff.mp hj)
      have hmemF : (some k0, value) ∈ m.forward := hInv.rev_fwd _ hmemR
      simp only [deleteReverse, hj]
      refine ⟨MapWF_mapDelete hInv.fwd_wf, MapWF_mapDelete hInv.rev_wf, ?_, ?_, ?_⟩
      · intro p hp
        exact hInv.fwd_defined p (mem_of_mem_mapDelete hp)
      · intro p hp
        have hpF := mem_of_mem_mapDelete hp
        have hpne := ne_of_mem_mapDelete hInv.fwd_wf hp
        refine mem_mapDelete_of_mem (hInv.fwd_rev p hpF) (fun hpv => ?_)
        have hpv2 : p.2 = value := hpv
        have h1 : (value, p.1) ∈ m.reverseMap := by
          have := hInv.fwd_rev p hpF
          rwa [hpv2] at this
        exact hpne (hInv.rev_unique h1 hmemR)
      · intro q hq
        have hqR := mem_of_mem_mapDelete hq
        have hqne := ne_of_mem_mapDelete hInv.rev_wf hq
        refine mem_mapDelete_of_mem (hInv.rev_fwd q hqR) (fun hqk => ?_)
        have hqk2 : q.2 = some k0 := hqk
        have h1 : (some k0, q.1) ∈ m.forward := by
          have := hInv.rev_fwd q hqR
          rwa [hqk2] at this
        exact hqne (hInv.fwd_unique h1 hmemF)

theorem inv_empty : Inv (empty : BidirectionalMap K V) := by
  refine ⟨?_, ?_, ?_, ?_, ?_⟩ <;> simp [empty, MapWF]

theorem inv_clear (m : BidirectionalMap K V) : Inv m.clear := by
  refine ⟨?_, ?_, ?_, ?_, ?_⟩ <;> simp [clear, MapWF]

/-- Any single public operation with defined arguments preserves the
invariant. -/
theorem inv_applyOp (hInv : Inv m) {op : Op K V}
    (hop : op.definedArgs = true) : Inv (applyOp m op) := by
  cases op with
  | set key value =>
      rw [Op.definedArgs, Bool.and_eq_true] at hop
      exact inv_set hInv hop.1 hop.2
  | del key => exact inv_delete hInv key
  | delRev value => exact inv_deleteReverse hInv value
  | clear => exact inv_clear m

theorem inv_foldl {ops : List (Op K V)} (hInv : Inv m)
    (hops : ∀ op ∈ ops, op.definedArgs = true) :
    Inv (ops.foldl applyOp m) := by
  induction ops generalizing m with
  | nil => exact hInv
  | cons op rest ih =>
      rw [List.foldl_cons]
      exact ih (inv_applyOp hInv (hops op (List.mem_cons_self _ _)))
        (fun o ho => hops o (List.mem_cons_of_mem _ ho))

/-- Every state reachable from empty by operations whose `set` arguments
are defined satisfies the invariant. -/
theorem inv_run {ops : List (Op K V)} (hops : DefinedOps ops) :
    Inv (run ops) :=
  inv_foldl inv_empty hops

/-- On invariant states the two maps have the same number of entries. -/
theorem inv_length_eq (hInv : Inv m) :
    m.forward.length = m.reverseMap.length := by
  have hnodF : m.forward.Nodup := List.Nodup.of_map _ hInv.fwd_wf
  have hnodR : m.reverseMap.Nodup := List.Nodup.of_map _ hInv.rev_wf
  have hperm : (m.forward.map Prod.swap).Perm m.reverseMap := by
    rw [List.perm_ext_iff_of_nodup (hnodF.map Prod.swap_injective) hnodR]
    intro q
    constructor
    · intro hq
      rcases List.mem_map.mp hq with ⟨p, hp, rfl⟩
      exact hInv.fwd_rev p hp
    · intro hq
      exact List.mem_map.mpr ⟨(q.2, q.1), hInv.rev_fwd q hq, rfl⟩
  calc m.forward.length = (m.forward.map Prod.swap).length :=
        (List.length_map _ _).symm
    _ = m.reverseMap.length := hperm.length_eq

end BidirectionalMap

/-! ### Observations on invariant states -/

namespace BidirectionalMap

variable {K V : Type} [DecidableEq K] [DecidableEq V]
variable {m : BidirectionalMap K V}

theorem get_of_mem (hInv : Inv m) {k : Option K} {v : Option V}
    (h : (k, v) ∈ m.forward) : m.get k = v := by
  rw [get, mapGet_eq_some_of_mem hInv.fwd_wf h, optJoin_some]

theorem getReverse_of_mem (hInv : Inv m) {v : Option V} {k : Option K}
    (h : (v, k) ∈ m.reverseMap) : m.getReverse v = k := by
  rw [getReverse, mapGet_eq_some_of_mem hInv.rev_wf h, optJoin_some]

/-- Operation `delete` on a key the forward map does not contain is a no-op
returning `false` (this holds for arbitrary states). -/
theorem delete_of_not_has {k : Option K} (h : m.has k = false) :
    m.delete k = (false, m) := by
  rw [has, mapHas] at h
  have hg : mapGet k m.forward = none := by
    cases hgg : mapGet k m.forward with
    | none => rfl
    | some v => rw [hgg] at h; simp at h
  have hj : (mapGet k m.forward).join = none := by rw [hg]; rfl
  simp only [delete, hj]

theorem constructLoop_eq_foldl (m : BidirectionalMap K V)
    (l : List (Option K × Option V)) :
    constructLoop m l = l.foldl (fun m p => m.set p.1 p.2) m := by
  induction l generalizing m with
  | nil => rfl
  | cons hd tl ih =>
      obtain ⟨key, value⟩ := hd
      rw [constructLoop, List.foldl_cons]
      exact ih _

end BidirectionalMap

/-! ### The claims -/

open BidirectionalMap in
/-- C4: on an empty container, `set("a", 1); set("b", 2); set("a", 2)`
leaves size 1, `get("a") = 2`, `getReverse(2) = "a"` and `getReverse(1)`
absent: the double collision evicts both stale entries. -/
theorem c4_double_collision_eviction :
    mapDoubleCollision.size = 1 ∧
    mapDoubleCollision.get (some "a") = some 2 ∧
    mapDoubleCollision.getReverse (some 2) = some "a" ∧
    mapDoubleCollision.getReverse (some 1) = none := by
  decide

open BidirectionalMap in
/-- C8: constructing from an ordered list of pairs (`ofIterable`) yields
exactly the same state as starting empty and calling `set` for each pair
in iteration order (`setEachSpec`), eviction effects included. -/
theorem c8_construct_eq_setEach {K V : Type} [DecidableEq K] [DecidableEq V]
    (l : List (Option K × Option V)) :
    ofIterable (some l) = setEachSpec l := by
  rw [ofIterable, setEachSpec]
  exact constructLoop_eq_foldl empty l

open BidirectionalMap in
/-- C9: when a key is present in the forward map with associated value
`undefined`, `delete` returns `false` and leaves the state unchanged even
though `has` reports the key as present. -/
theorem c9_delete_on_undefined_value {K V : Type} [DecidableEq K]
    [DecidableEq V] (m : BidirectionalMap K V) (k : Option K)
    (h : mapGet k m.forward = some none) :
    m.delete k = (false, m) ∧ m.has k = true := by
  have hj : (mapGet k m.forward).join = none := by rw [h]; rfl
  constructor
  · simp only [delete, hj]
  · rw [has, mapHas, h]
    rfl

open BidirectionalMap in
/-- Witness for C9 at the concrete state `set(0, undefined)`. -/
theorem c9_delete_on_undefined_value_witness :
    mapGet (some 0) mapUndefinedValue.forward = some none ∧
    (mapUndefinedValue.delete (some 0) = (false, mapUndefinedValue) ∧
     mapUndefinedValue.has (some 0) = true) :=
  ⟨by decide, c9_delete_on_undefined_value mapUndefinedValue (some 0) (by decide)⟩

open BidirectionalMap in
/-- C1 counterexample: after `set(0, undefined); set(0, 1)` from empty,
the reverse map still holds the stale entry `(undefined, 0)` although the
forward map holds no entry `(0, undefined)` — the two maps are not
inverses of each other. -/
theorem c1_counterexample_undefined_value :
    (none, some 0) ∈ (run opsUndefinedValue).reverseMap ∧
    (some 0, none) ∉ (run opsUndefinedValue).forward := by
  decide

open BidirectionalMap in
/-- C1 (amended): starting from empty, after any finite sequence of
`set`/`delete`/`deleteReverse`/`clear` operations *whose `set` calls all
receive key and value distinct from `undefined`*, the two maps are exact
inverses: every forward entry `(k, v)` satisfies `get k = v` and
`getReverse v = k`, and every reverse entry `(v, k)` has `(k, v)` in the
forward map. -/
theorem c1_forward_reverse_inverse {K V : Type} [DecidableEq K]
    [DecidableEq V] (ops : List (Op K V)) (hops : DefinedOps ops) :
    (∀ p ∈ (run ops).forward,
        (run ops).get p.1 = p.2 ∧ (run ops).getReverse p.2 = p.1) ∧
    (∀ q ∈ (run ops).reverseMap, (q.2, q.1) ∈ (run ops).forward) := by
  have hInv : Inv (run ops) := inv_run hops
  refine ⟨fun p hp => ?_, fun q hq => hInv.rev_fwd q hq⟩
  refine ⟨get_of_mem hInv ?_, getReverse_of_mem hInv (hInv.fwd_rev p hp)⟩
  exact hp

open BidirectionalMap in
/-- Witness for C1 at the concrete defined-arguments sequence
`set(1, 10); set(2, 20); delete(1)`. -/
theorem c1_forward_reverse_inverse_witness :
    DefinedOps opsSample ∧
    ((run opsSample).get (some 2) = some 20 ∧
     (run opsSample).getReverse (some 20) = some 2) :=
  ⟨by decide,
   (c1_forward_reverse_inverse opsSample (by decide)).1 (some 2, some 20)
     (by decide)⟩

open BidirectionalMap in
/-- C5 counterexample: after `set(0, undefined); set(0, 1)` from empty,
the forward map has one entry, the reverse map has two, and the reported
size is 1 — the three counts do not agree. -/
theorem c5_counterexample_undefined_value :
    (run opsUndefinedValue).forward.length = 1 ∧
    (run opsUndefinedValue).reverseMap.length = 2 ∧
    (run opsUndefinedValue).size = 1 := by
  decide

open BidirectionalMap in
/-- C5 (amended): after any finite sequence of operations from empty
*whose `set` calls all receive key and value distinct from `undefined`*,
the forward and reverse maps have the same number of entries and the
reported size equals that count. -/
theorem c5_size_parity {K V : Type} [DecidableEq K] [DecidableEq V]
    (ops : List (Op K V)) (hops : DefinedOps ops) :
    (run ops).forward.length = (run ops).reverseMap.length ∧
    (run ops).size = (run ops).forward.length :=
  ⟨inv_length_eq (inv_run hops), rfl⟩

open BidirectionalMap in
/-- Witness for C5 at the sequence `set(1, 10); set(2, 20); delete(1)`. -/
theorem c5_size_parity_witness :
    DefinedOps opsSample ∧
    ((run opsSample).forward.length = (run opsSample).reverseMap.length ∧
     (run opsSample).size = (run opsSample).forward.length) :=
  ⟨by decide, c5_size_parity opsSample (by decide)⟩

theorem optEq_none_of_isSome_false {α : Type} {o : Option α}
    (h : o.isSome = false) : o = none := by
  cases o with
  | none => rfl
  | some a => simp at h

namespace BidirectionalMap

variable {K V : Type} [DecidableEq K] [DecidableEq V]
variable {m : BidirectionalMap K V}

/-- Operation `deleteReverse` on a value the reverse map does not contain is a no-op
returning `false` (this holds for arbitrary states). -/
theorem deleteReverse_of_not_hasReverse {v : Option V}
    (h : m.hasReverse v = false) : m.deleteReverse v = (false, m) := by
  rw [hasReverse, mapHas] at h
  have hg : mapGet v m.reverseMap = none := optEq_none_of_isSome_false h
  have hj : (mapGet v m.reverseMap).join = none := by rw [hg]; rfl
  simp only [deleteReverse, hj]

end BidirectionalMap

open BidirectionalMap in
/-- C2 counterexample: the pair `(0, undefined)` has been inserted (it is
an entry of the forward map), yet `delete(0)` returns `false` instead of
`true`. -/
theorem c2_counterexample_undefined_value :
    (some 0, none) ∈ mapUndefinedValue.forward ∧
    (mapUndefinedValue.delete (some 0)).1 = false := by
  decide

open BidirectionalMap in
/-- C2 (amended): in any state satisfying the representation invariant
(in particular any state reached from empty by defined-argument
operations), for every entry `(k, v)` of the forward map `delete k`
returns `true` and afterwards `get k` and `getReverse v` are absent;
deleting `k` again returns `false` and changes nothing; and deleting any
absent key is a no-op returning `false`. -/
theorem c2_delete_inserted_pair {K V : Type} [DecidableEq K] [DecidableEq V]
    {m : BidirectionalMap K V} {k k2 : Option K} {v : Option V}
    (hInv : Inv m) (hmem : (k, v) ∈ m.forward) (habs : m.has k2 = false) :
    (m.delete k).1 = true ∧
    (m.delete k).2.get k = none ∧
    (m.delete k).2.getReverse v = none ∧
    (m.delete k).2.delete k = (false, (m.delete k).2) ∧
    m.delete k2 = (false, m) := by
  have hv := (hInv.fwd_defined _ hmem).2
  obtain ⟨v0, rfl⟩ := Option.isSome_iff_exists.mp hv
  have hg : mapGet k m.forward = some (some v0) :=
    mapGet_eq_some_of_mem hInv.fwd_wf hmem
  have hj : (mapGet k m.forward).join = some v0 := by rw [hg]; rfl
  have hsnd : (m.delete k).2 =
      (⟨mapDelete k m.forward, mapDelete (some v0) m.reverseMap⟩ :
        BidirectionalMap K V) := by
    simp only [delete, hj]
  refine ⟨?_, ?_, ?_, ?_, delete_of_not_has habs⟩
  · simp only [delete, hj]
    rw [mapHas, hg]
    rfl
  · rw [hsnd]
    show (mapGet k (mapDelete k m.forward)).join = none
    rw [mapGet_mapDelete_self hInv.fwd_wf]
    rfl
  · rw [hsnd]
    show (mapGet (some v0) (mapDelete (some v0) m.reverseMap)).join = none
    rw [mapGet_mapDelete_self hInv.rev_wf]
    rfl
  · rw [hsnd]
    apply delete_of_not_has
    rw [has]
    show mapHas k (mapDelete k m.forward) = false
    rw [mapHas, mapGet_mapDelete_self hInv.fwd_wf]
    rfl

open BidirectionalMap in
/-- Witness for C2 at the state `set(1, 10); set(2, 20)` with the entry
`(1, 10)` and the absent key `5`. -/
theorem c2_delete_inserted_pair_witness :
    Inv mapSample ∧ (some 1, some 10) ∈ mapSample.forward ∧
    mapSample.has (some 5) = false ∧
    ((mapSample.delete (some 1)).1 = true ∧
     (mapSample.delete (some 1)).2.get (some 1) = none ∧
     (mapSample.delete (some 1)).2.getReverse (some 10) = none ∧
     (mapSample.delete (some 1)).2.delete (some 1) =
       (false, (mapSample.delete (some 1)).2) ∧
     mapSample.delete (some 5) = (false, mapSample)) :=
  ⟨by decide, by decide, by decide,
   c2_delete_inserted_pair (by decide) (by decide) (by decide)⟩

open BidirectionalMap in
/-- C7 counterexample: the pair `(undefined, 0)` has been inserted (it is
an entry of the forward map), yet `deleteReverse(0)` returns `false`
instead of `true`, because the reverse lookup yields the key `undefined`
which the `=== undefined` test mistakes for absence. -/
theorem c7_counterexample_undefined_key :
    (none, some 0) ∈ mapUndefinedKey.forward ∧
    (mapUndefinedKey.deleteReverse (some 0)).1 = false := by
  decide

open BidirectionalMap in
/-- C7 (amended): in any state satisfying the representation invariant
(in particular any state reached from empty by defined-argument
operations), for every entry `(k, v)` of the forward map,
`deleteReverse v` returns `true`, afterwards `get k` and `getReverse v`
are absent, the resulting state is exactly the state `delete k` would
produce, and a subsequent `deleteReverse v` returns `false` and changes
nothing. -/
theorem c7_deleteReverse_mirror {K V : Type} [DecidableEq K] [DecidableEq V]
    {m : BidirectionalMap K V} {k : Option K} {v : Option V}
    (hInv : Inv m) (hmem : (k, v) ∈ m.forward) :
    (m.deleteReverse v).1 = true ∧
    (m.deleteReverse v).2.get k = none ∧
    (m.deleteReverse v).2.getReverse v = none ∧
    (m.deleteReverse v).2 = (m.delete k).2 ∧
    (m.deleteReverse v).2.deleteReverse v = (false, (m.deleteReverse v).2) := by
  have hk := (hInv.fwd_defined _ hmem).1
  have hv := (hInv.fwd_defined _ hmem).2
  obtain ⟨k0, rfl⟩ := Option.isSome_iff_exists.mp hk
  obtain ⟨v0, rfl⟩ := Option.isSome_iff_exists.mp hv
  have hmemR : (some v0, some k0) ∈ m.reverseMap := hInv.fwd_rev _ hmem
  have hgR : mapGet (some v0) m.reverseMap = some (some k0) :=
    mapGet_eq_some_of_mem hInv.rev_wf hmemR
  have hjR : (mapGet (some v0) m.reverseMap).join = some k0 := by
    rw [hgR]
    rfl
  have hgF : mapGet (some k0) m.forward = some (some v0) :=
    mapGet_eq_some_of_mem hInv.fwd_wf hmem
  have hjF : (mapGet (some k0) m.forward).join = some v0 := by
    rw [hgF]
    rfl
  have hsnd : (m.deleteReverse (some v0)).2 =
      (⟨mapDelete (some k0) m.forward, mapDelete (some v0) m.reverseMap⟩ :
        BidirectionalMap K V) := by
    simp only [deleteReverse, hjR]
  have hsndD : (m.delete (some k0)).2 =
      (⟨mapDelete (some k0) m.forward, mapDelete (some v0) m.reverseMap⟩ :
        BidirectionalMap K V) := by
    simp only [delete, hjF]
  refine ⟨?_, ?_, ?_, ?_, ?_⟩
  · simp only [deleteReverse, hjR]
    rw [mapHas, hgR]
    rfl
  · rw [hsnd]
    show (mapGet (some k0) (mapDelete (some k0) m.forward)).join = none
    rw [mapGet_mapDelete_self hInv.fwd_wf]
    rfl
  · rw [hsnd]
    show (mapGet (some v0) (mapDelete (some v0) m.reverseMap)).join = none
    rw [mapGet_mapDelete_self hInv.rev_wf]
    rfl
  · rw [hsnd, hsndD]
  · rw [hsnd]
    apply deleteReverse_of_not_hasReverse
    rw [hasReverse]
    show mapHas (some v0) (mapDelete (some v0) m.reverseMap) = false
    rw [mapHas, mapGet_mapDelete_self hInv.rev_wf]
    rfl

open BidirectionalMap in
/-- Witness for C7 at the state `set(1, 10); set(2, 20)` with the entry
`(2, 20)`. -/
theorem c7_deleteReverse_mirror_witness :
    Inv mapSample ∧ (some 2, some 20) ∈ mapSample.forward ∧
    ((mapSample.deleteReverse (some 20)).1 = true ∧
     (mapSample.deleteReverse (some 20)).2.get (some 2) = none ∧
     (mapSample.deleteReverse (some 20)).2.getReverse (some 20) = none ∧
     (mapSample.deleteReverse (some 20)).2 = (mapSample.delete (some 2)).2 ∧
     (mapSample.deleteReverse (some 20)).2.deleteReverse (some 20) =
       (false, (mapSample.deleteReverse (some 20)).2)) :=
  ⟨by decide, by decide, c7_deleteReverse_mirror (by decide) (by decide)⟩

open BidirectionalMap in
/-- C3 counterexample: the code communicates absence with the JavaScript
value `undefined`, which is itself a storable data value, not a dedicated
representation-level marker.  After `set(0, undefined)`, key `0` is
present (`has` is true) yet `get(0)` returns the same sentinel as the
absent key `1`, and `delete(0)` reports `false` as if `0` were absent. -/
theorem c3_counterexample_sentinel_collision :
    mapUndefinedValue.has (some 0) = true ∧
    mapUndefinedValue.get (some 0) = none ∧
    mapUndefinedValue.has (some 1) = false ∧
    mapUndefinedValue.get (some 1) = none ∧
    (mapUndefinedValue.delete (some 0)).1 = false := by
  decide

open BidirectionalMap in
/-- C3 (amended): the implementation overloads the data value `undefined`
as its absence sentinel, so unambiguity only holds away from the sentinel:
in any state satisfying the representation invariant (all stored keys and
values defined), `get`/`getReverse` return the sentinel exactly for absent
keys/values, and `delete`/`deleteReverse` succeed exactly on present
keys/values. -/
theorem c3_sentinel_unambiguous_on_inv {K V : Type} [DecidableEq K]
    [DecidableEq V] {m : BidirectionalMap K V} (hInv : Inv m)
    (k : Option K) (v : Option V) :
    (m.get k = none ↔ m.has k = false) ∧
    (m.getReverse v = none ↔ m.hasReverse v = false) ∧
    (m.delete k).1 = m.has k ∧
    (m.deleteReverse v).1 = m.hasReverse v := by
  refine ⟨⟨fun h => ?_, fun h => ?_⟩, ⟨fun h => ?_, fun h => ?_⟩, ?_, ?_⟩
  · rw [has, mapHas, hInv.fwdGet_none_of_join h]
    rfl
  · rw [has, mapHas] at h
    rw [BidirectionalMap.get, optEq_none_of_isSome_false h]
    rfl
  · rw [hasReverse, mapHas, hInv.revGet_none_of_join h]
    rfl
  · rw [hasReverse, mapHas] at h
    rw [getReverse, optEq_none_of_isSome_false h]
    rfl
  · cases hj : (mapGet k m.forward).join with
    | none =>
        simp only [delete, hj]
        rw [has, mapHas, hInv.fwdGet_none_of_join hj]
        rfl
    | some v0 => simp only [delete, hj, has]
  · cases hj : (mapGet v m.reverseMap).join with
    | none =>
        simp only [deleteReverse, hj]
        rw [hasReverse, mapHas, hInv.revGet_none_of_join hj]
        rfl
    | some k0 => simp only [deleteReverse, hj, hasReverse]

open BidirectionalMap in
/-- Witness for C3 at the state `set(1, 10); set(2, 20)` with key `1`
(present) and value `777` (absent). -/
theorem c3_sentinel_unambiguous_on_inv_witness :
    Inv mapSample ∧
    ((mapSample.get (some 1) = none ↔ mapSample.has (some 1) = false) ∧
     (mapSample.getReverse (some 777) = none ↔
       mapSample.hasReverse (some 777) = false) ∧
     (mapSample.delete (some 1)).1 = mapSample.has (some 1) ∧
     (mapSample.deleteReverse (some 777)).1 =
       mapSample.hasReverse (some 777)) :=
  ⟨by decide,
   c3_sentinel_unambiguous_on_inv (by decide) (some 1) (some 777)⟩

open BidirectionalMap in
/-- C6 counterexample: with `k1 = undefined`, `k2 = 0`, `v = 0` (distinct
keys), `set(k1, v); set(k2, v)` leaves size 2 and `get(k1)` still defined:
the stale entry is not evicted because the reverse lookup returned the key
`undefined`, which the `=== undefined` test mistakes for absence. -/
theorem c6_counterexample_undefined_key :
    (none : Option Nat) ≠ some 0 ∧
    (mapUndefinedKey.set (some 0) (some 0)).size = 2 ∧
    (mapUndefinedKey.set (some 0) (some 0)).get none = some 0 := by
  decide

open BidirectionalMap in
/-- C6 (amended): for `k1` distinct from `undefined` and `k1 ≠ k2`,
`set(k1, v); set(k2, v)` on an empty container results in size 1 with
`get k2 = v`, `get k1` absent and `getReverse v = k2`. -/
theorem c6_value_collision_evicts {K V : Type} [DecidableEq K]
    [DecidableEq V] {k1 k2 : Option K} {v : Option V}
    (hk1 : k1.isSome = true) (hne : k1 ≠ k2) :
    ((empty.set k1 v).set k2 v).size = 1 ∧
    ((empty.set k1 v).set k2 v).get k2 = v ∧
    ((empty.set k1 v).set k2 v).get k1 = none ∧
    ((empty.set k1 v).set k2 v).getReverse v = k2 := by
  obtain ⟨a, rfl⟩ := Option.isSome_iff_exists.mp hk1
  have h1 : (empty.set (some a) v : BidirectionalMap K V) =
      ⟨[(some a, v)], [(v, some a)]⟩ := rfl
  rw [h1]
  have hg2 : mapGet k2 ([(some a, v)] : List (Option K × Option V)) = none := by
    rw [mapGet_cons, if_neg hne]
    rfl
  have hR1 : setRev1 (⟨[(some a, v)], [(v, some a)]⟩ : BidirectionalMap K V)
      k2 = [(v, some a)] := by
    apply setRev1_of_join_none
    show (mapGet k2 [(some a, v)]).join = none
    rw [hg2]
    rfl
  have hgv : mapGet v ([(v, some a)] : List (Option V × Option K)) =
      some (some a) := by
    rw [mapGet_cons, if_pos rfl]
  have hF1 : setFwd1 (⟨[(some a, v)], [(v, some a)]⟩ : BidirectionalMap K V)
      k2 v = mapDelete (some a) [(some a, v)] := by
    apply setFwd1_of_join_some
    rw [hR1, hgv]
    rfl
  have hDel : mapDelete (some a) ([(some a, v)] :
      List (Option K × Option V)) = [] := by
    simp [mapDelete]
  have hfinal : ((⟨[(some a, v)], [(v, some a)]⟩ :
      BidirectionalMap K V).set k2 v) = ⟨[(k2, v)], [(v, k2)]⟩ := by
    show (⟨mapSet k2 v (setFwd1 _ k2 v), mapSet v k2 (setRev1 _ k2)⟩ :
      BidirectionalMap K V) = ⟨[(k2, v)], [(v, k2)]⟩
    rw [hF1, hDel, hR1]
    simp [mapSet]
  rw [hfinal]
  refine ⟨rfl, ?_, ?_, ?_⟩
  · show (mapGet k2 [(k2, v)]).join = v
    rw [mapGet_cons, if_pos rfl]
    exact optJoin_some v
  · show (mapGet (some a) [(k2, v)]).join = none
    rw [mapGet_cons, if_neg (Ne.symm hne)]
    rfl
  · show (mapGet v [(v, k2)]).join = k2
    rw [mapGet_cons, if_pos rfl]
    exact optJoin_some k2

open BidirectionalMap in
/-- Witness for C6 with `k1 = 1`, `k2 = 2`, `v = 7` over `Nat`. -/
theorem c6_value_collision_evicts_witness :
    (some 1 : Option Nat).isSome = true ∧ (some 1 : Option Nat) ≠ some 2 ∧
    size
      (((empty : BidirectionalMap Nat Nat).set (some 1) (some 7)).set
        (some 2) (some 7)) = 1 ∧
    (((empty : BidirectionalMap Nat Nat).set (some 1) (some 7)).set
        (some 2) (some 7)).get (some 2) = some 7 ∧
    (((empty : BidirectionalMap Nat Nat).set (some 1) (some 7)).set
        (some 2) (some 7)).get (some 1) = none ∧
    (((empty : BidirectionalMap Nat Nat).set (some 1) (some 7)).set
        (some 2) (some 7)).getReverse (some 7) = some 2 := by
  refine ⟨by decide, by decide, ?_⟩
  exact c6_value_collision_evicts (by decide) (by decide)

open BidirectionalMap in
/-- C10: for defined key and value, on any container state (both
underlying maps well-formed), setting the same pair twice produces the
same container as setting it once: the forward map is unchanged entry for
entry, the reverse map holds exactly the same entries (the second `set`
may move the pair's reverse entry to the end of the insertion order), and
the size is the same. -/
theorem c10_set_idempotent {K V : Type} [DecidableEq K] [DecidableEq V]
    {m : BidirectionalMap K V} {k : Option K} {v : Option V}
    (_hwfF : MapWF m.forward) (hwfR : MapWF m.reverseMap)
    (_hk : k.isSome = true) (hv : v.isSome = true) :
    ((m.set k v).set k v).forward = (m.set k v).forward ∧
    ((m.set k v).set k v).reverseMap.Perm (m.set k v).reverseMap ∧
    ((m.set k v).set k v).size = (m.set k v).size := by
  obtain ⟨v0, rfl⟩ := Option.isSome_iff_exists.mp hv
  have ha : mapGet k (m.set k (some v0)).forward = some (some v0) := by
    show mapGet k (mapSet k (some v0) (setFwd1 m k (some v0))) =
      some (some v0)
    exact mapGet_mapSet_self _ _ _
  have hj1 : (mapGet k (m.set k (some v0)).forward).join = some v0 := by
    rw [ha]
    rfl
  have hwfR0 : MapWF (setRev1 m k) := MapWF_setRev1 hwfR
  have hc : setRev1 (m.set k (some v0)) k =
      mapDelete (some v0) (setRev1 m k) := by
    rw [setRev1_of_join_some hj1]
    show mapDelete (some v0) (mapSet (some v0) k (setRev1 m k)) = _
    exact mapDelete_mapSet _ _ _
  have he : mapGet (some v0) (setRev1 (m.set k (some v0)) k) = none := by
    rw [hc]
    exact mapGet_mapDelete_self hwfR0
  have hf : setFwd1 (m.set k (some v0)) k (some v0) =
      (m.set k (some v0)).forward := by
    apply setFwd1_of_join_none
    rw [he]
    rfl
  have hgEq : ((m.set k (some v0)).set k (some v0)).forward =
      (m.set k (some v0)).forward := by
    show mapSet k (some v0) (setFwd1 (m.set k (some v0)) k (some v0)) = _
    rw [hf]
    exact mapSet_eq_of_mapGet_eq ha
  refine ⟨hgEq, ?_, ?_⟩
  · show (mapSet (some v0) k (setRev1 (m.set k (some v0)) k)).Perm
      (m.set k (some v0)).reverseMap
    rw [hc]
    show (mapSet (some v0) k (mapDelete (some v0) (setRev1 m k))).Perm
      (mapSet (some v0) k (setRev1 m k))
    cases hHas : mapHas (some v0) (setRev1 m k) with
    | true =>
        have hnot : mapHas (some v0)
            (mapDelete (some v0) (setRev1 m k)) = false := by
          rw [mapHas, mapGet_mapDelete_self hwfR0]
          rfl
        rw [mapSet_of_not_has hnot]
        exact (perm_mapSet_of_has hHas).symm
    | false => rw [mapDelete_of_not_has hHas]
  · show ((m.set k (some v0)).set k (some v0)).forward.length =
      (m.set k (some v0)).forward.length
    rw [hgEq]

open BidirectionalMap in
/-- Witness for C10 at the state `set(1, 10); set(2, 20)` with key `3`
and value `10` (a value collision, so the second entry is evicted). -/
theorem c10_set_idempotent_witness :
    MapWF mapSample.forward ∧ MapWF mapSample.reverseMap ∧
    (some 3 : Option Nat).isSome = true ∧
    (some 10 : Option Nat).isSome = true ∧
    ((mapSample.set (some 3) (some 10)).set (some 3)
        (some 10)).forward = (mapSample.set (some 3) (some 10)).forward ∧
    ((mapSample.set (some 3) (some 10)).set (some 3)
        (some 10)).reverseMap.Perm
      (mapSample.set (some 3) (some 10)).reverseMap ∧
    ((mapSample.set (some 3) (some 10)).set (some 3) (some 10)).size =
      (mapSample.set (some 3) (some 10)).size := by
  refine ⟨by decide, by decide, by decide, by decide, ?_⟩
  exact c10_set_idempotent (by decide) (by decide) (by decide) (by decide)
